import Mathlib

/- Shallow embedding of the aniposelib multi-view geometry core
   (aniposelib/cameras.py): camera parameter packing, linear and weighted
   triangulation, reprojection scoring, the robust calibration loop
   skeleton, the multi-hypothesis triangulation search, camera copying,
   and the persistence round trip.  Floating-point arrays are modelled
   over the rationals (the reprojection scorer, which needs square roots,
   over the reals); the NaN missing-data sentinel becomes Option.none.
   External numeric kernels (SVD, OpenCV projection and undistortion, the
   scipy least-squares solver) are oracle parameters constrained only by
   explicit hypotheses. -/

namespace Anipose

/-- State of one camera: the nine entries of the 3x3 intrinsic matrix,
the distortion coefficient list, the axis-angle rotation and the
translation vectors, plus bookkeeping (name, frame size, the
extra-distortion flag, and whether the camera is the fisheye variant;
the fisheye flag selects which get_params/set_params methods dispatch,
mirroring the Camera / FisheyeCamera classes). -/
structure CamState where
  m00 : ℚ := 1
  m01 : ℚ := 0
  m02 : ℚ := 0
  m10 : ℚ := 0
  m11 : ℚ := 1
  m12 : ℚ := 0
  m20 : ℚ := 0
  m21 : ℚ := 0
  m22 : ℚ := 1
  dist : List ℚ := [0, 0, 0, 0, 0]
  r0 : ℚ := 0
  r1 : ℚ := 0
  r2 : ℚ := 0
  t0 : ℚ := 0
  t1 : ℚ := 0
  t2 : ℚ := 0
  name : String := "None"
  size : Option (ℚ × ℚ) := none
  extraDist : Bool := false
  fisheye : Bool := false
deriving DecidableEq

/-- A default pinhole Camera(): identity matrix, five zero distortion
coefficients, zero rotation and translation. -/
def defaultCamera : CamState := {}

/-- A default FisheyeCamera(): identity matrix, four zero distortion
coefficients, zero rotation and translation. -/
def defaultFisheye : CamState := { dist := [0, 0, 0, 0], fisheye := true }

/-- Camera.get_params(optimize_intrinsics): the first six entries are the
extrinsics (rotation then translation); when the flag is set, ten more
follow: fx, fy, cx, cy, skew, then the first five distortion
coefficients. -/
def Camera.getParams (c : CamState) (optimizeIntrinsics : Bool) : List ℚ :=
  let out := [c.r0, c.r1, c.r2, c.t0, c.t1, c.t2]
  if optimizeIntrinsics then
    out ++ [c.m00, c.m11, c.m02, c.m12, c.m01,
            c.dist.getD 0 0, c.dist.getD 1 0, c.dist.getD 2 0,
            c.dist.getD 3 0, c.dist.getD 4 0]
  else
    out

/-- Camera.set_params(params, optimize_intrinsics): always reads the six
extrinsics; when the flag is set it also rebuilds the intrinsic matrix
(zeroing the lower-triangular entries and forcing the bottom-right entry
to 1) and replaces the distortion vector with five entries. -/
def Camera.setParams (c : CamState) (p : List ℚ) (optimizeIntrinsics : Bool) :
    CamState :=
  let c1 := { c with
    r0 := p.getD 0 0, r1 := p.getD 1 0, r2 := p.getD 2 0,
    t0 := p.getD 3 0, t1 := p.getD 4 0, t2 := p.getD 5 0 }
  if optimizeIntrinsics then
    { c1 with
      m00 := p.getD 6 0, m11 := p.getD 7 0, m02 := p.getD 8 0,
      m12 := p.getD 9 0, m01 := p.getD 10 0,
      m10 := 0, m20 := 0, m21 := 0, m22 := 1,
      dist := [p.getD 11 0, p.getD 12 0, p.getD 13 0,
               p.getD 14 0, p.getD 15 0] }
  else
    c1

/-- FisheyeCamera.get_params(only_extrinsics): six extrinsics; unless the
flag is set, also the mean focal length (fx+fy)/2 and the first one or
two distortion coefficients (two only with extra_dist). -/
def FisheyeCamera.getParams (c : CamState) (onlyExtrinsics : Bool) : List ℚ :=
  let out := [c.r0, c.r1, c.r2, c.t0, c.t1, c.t2]
  if onlyExtrinsics then
    out
  else
    out ++ [(c.m00 + c.m11) / 2, c.dist.getD 0 0]
        ++ (if c.extraDist then [c.dist.getD 1 0] else [])

/-- FisheyeCamera.set_params(params, only_extrinsics): always sets the
six extrinsics; unless the flag is set it also sets both focal lengths
to the single packed focal value and rebuilds the four-entry distortion
vector from the packed entries (the last two entries become zero). -/
def FisheyeCamera.setParams (c : CamState) (p : List ℚ) (onlyExtrinsics : Bool) :
    CamState :=
  let c1 := { c with
    r0 := p.getD 0 0, r1 := p.getD 1 0, r2 := p.getD 2 0,
    t0 := p.getD 3 0, t1 := p.getD 4 0, t2 := p.getD 5 0 }
  if onlyExtrinsics then
    c1
  else
    { c1 with
      m00 := p.getD 6 0, m11 := p.getD 6 0,
      dist := [p.getD 7 0, if c.extraDist then p.getD 8 0 else 0, 0, 0] }

/-- Per-camera parameter packing as dispatched by
CameraGroup._initialize_params_bundle: each camera's own get_params
method receives the group-level only_extrinsics flag positionally. -/
def camGetParamsDispatch (c : CamState) (onlyExtrinsics : Bool) : List ℚ :=
  if c.fisheye then FisheyeCamera.getParams c onlyExtrinsics
  else Camera.getParams c onlyExtrinsics

/-- n_cam_params as computed by CameraGroup._initialize_params_bundle:
the length of the concatenated per-camera parameter blocks divided by the
number of cameras. -/
def nCamParamsBundle (cams : List CamState) (onlyExtrinsics : Bool) : ℕ :=
  ((cams.map (fun c => camGetParamsDispatch c onlyExtrinsics)).flatten).length /
    cams.length

/-- Commit step of CameraGroup.bundle_adjust: each camera's set_params
method receives its slice of the solver output and the group-level
only_extrinsics flag positionally. -/
def camSetParamsDispatch (c : CamState) (p : List ℚ) (onlyExtrinsics : Bool) :
    CamState :=
  if c.fisheye then FisheyeCamera.setParams c p onlyExtrinsics
  else Camera.setParams c p onlyExtrinsics

/-! Triangulation (triangulate_simple, triangulate_weighted, and the
CameraGroup.triangulate / CameraGroup.triangulate_weighted loops).
A 2D point is a pair of rationals, a 3D point a triple; a 3x4 projection
matrix is a function from row index to a 4-vector.  The SVD is an oracle
`List Vec4 → Vec4` returning the right-singular vector used as the
homogeneous solution (vh[-1]); theorems constrain it by hypothesis. -/

/-- A 2D image point. -/
abbrev Pt2 := ℚ × ℚ

/-- A 3D world point. -/
abbrev Pt3 := ℚ × ℚ × ℚ

/-- A homogeneous 4-vector. -/
abbrev Vec4 := Fin 4 → ℚ

/-- A 3x4 camera projection matrix, row by row. -/
abbrev Mat34 := Fin 3 → Vec4

/-- Dot product of two 4-vectors. -/
def dot4 (a b : Vec4) : ℚ := ∑ i, a i * b i

/-- Homogeneous coordinates of a 3D point. -/
def homog (X : Pt3) : Vec4 := ![X.1, X.2.1, X.2.2, 1]

/-- The stacked DLT system of triangulate_simple: for camera i with
observation (x, y) and matrix mat, the two rows x*mat[2]-mat[0] and
y*mat[2]-mat[1].  The parallel arrays points / camera_mats of the source
are passed zipped. -/
def dltRows (sub : List (Pt2 × Mat34)) : List Vec4 :=
  sub.flatMap (fun pm =>
    [fun j => pm.1.1 * pm.2 2 j - pm.2 0 j,
     fun j => pm.1.2 * pm.2 2 j - pm.2 1 j])

/-- The weighted DLT system of triangulate_weighted: each camera's two
rows are additionally scaled by that camera's confidence weight. -/
def dltRowsWeighted (sub : List ((Pt2 × Mat34) × ℚ)) : List Vec4 :=
  sub.flatMap (fun pmw =>
    [fun j => pmw.2 * (pmw.1.1.1 * pmw.1.2 2 j - pmw.1.2 0 j),
     fun j => pmw.2 * (pmw.1.1.2 * pmw.1.2 2 j - pmw.1.2 1 j)])

/-- Dehomogenization p3d[:3] / p3d[3] of the homogeneous solution. -/
def dehomog (v : Vec4) : Pt3 := (v 0 / v 3, v 1 / v 3, v 2 / v 3)

/-- triangulate_simple: build the DLT system, take the SVD's last
right-singular vector, dehomogenize. -/
def triangulate_simple (svd : List Vec4 → Vec4) (sub : List (Pt2 × Mat34)) :
    Pt3 :=
  dehomog (svd (dltRows sub))

/-- triangulate_weighted: identical to triangulate_simple except that the
rows are pre-scaled by the per-camera weights before the SVD. -/
def triangulate_weighted (svd : List Vec4 → Vec4)
    (sub : List ((Pt2 × Mat34) × ℚ)) : Pt3 :=
  dehomog (svd (dltRowsWeighted sub))

/-- Optional per-camera undistortion pass shared by the triangulation
entry points: when the undistort flag is set, each present observation is
mapped through that camera's undistort_points (an oracle standing for the
OpenCV call); missing observations stay missing. -/
def undistortAll {C N : ℕ} (uflag : Bool) (undist : Fin C → Pt2 → Pt2)
    (obs : Fin C → Fin N → Option Pt2) : Fin C → Fin N → Option Pt2 :=
  fun c n => if uflag then (obs c n).map (undist c) else obs c n

/-- For one point index, the valid (present) observations zipped with the
extrinsics matrices, in camera-index order — the subp[good] /
cam_mats[good] pair of the source. -/
def goodList {C N : ℕ} (obs : Fin C → Fin N → Option Pt2)
    (mats : Fin C → Mat34) (n : Fin N) : List (Pt2 × Mat34) :=
  (List.finRange C).filterMap (fun c => (obs c n).map (fun p => (p, mats c)))

/-- As goodList but also zipping each valid observation with its weight:
weights=None gives every observation weight 1, a per-camera weights
vector gives weights[good]. -/
def goodListWeighted {C N : ℕ} (obs : Fin C → Fin N → Option Pt2)
    (mats : Fin C → Mat34) (weights : Option (Fin C → ℚ)) (n : Fin N) :
    List ((Pt2 × Mat34) × ℚ) :=
  (List.finRange C).filterMap (fun c =>
    (obs c n).map (fun p =>
      ((p, mats c), match weights with
                    | none => 1
                    | some w => w c)))

/-- CameraGroup.triangulate (non-fast path; the fast path delegates every
camera pair to cv2.triangulatePoints, an external capability): undistort,
then per point triangulate the valid observations when at least two are
present, and otherwise leave the output missing. -/
def CameraGroup.triangulate {C N : ℕ} (svd : List Vec4 → Vec4)
    (uflag : Bool) (undist : Fin C → Pt2 → Pt2)
    (mats : Fin C → Mat34) (obs : Fin C → Fin N → Option Pt2) :
    Fin N → Option Pt3 :=
  fun n =>
    let sub := goodList (undistortAll uflag undist obs) mats n
    if 2 ≤ sub.length then some (triangulate_simple svd sub) else none

/-- CameraGroup.triangulate_weighted: same loop, but each point is
triangulated by the weighted kernel; with weights=None every valid
observation gets weight 1. -/
def CameraGroup.triangulate_weighted {C N : ℕ} (svd : List Vec4 → Vec4)
    (uflag : Bool) (undist : Fin C → Pt2 → Pt2)
    (mats : Fin C → Mat34) (obs : Fin C → Fin N → Option Pt2)
    (weights : Option (Fin C → ℚ)) : Fin N → Option Pt3 :=
  fun n =>
    let sub := goodListWeighted (undistortAll uflag undist obs) mats weights n
    if 2 ≤ sub.length then some (Anipose.triangulate_weighted svd sub) else none

/-- Number of valid (non-missing) raw observations of point n. -/
def validCount {C N : ℕ} (obs : Fin C → Fin N → Option Pt2) (n : Fin N) : ℕ :=
  ((List.finRange C).filter (fun c => (obs c n).isSome)).length

/-! Reprojection scoring (CameraGroup.reprojection_error with mean=True).
This works over the reals because the per-camera error is a Euclidean
norm.  Per-camera projection (cv2.projectPoints under Camera.project) is
an oracle; a residual is present exactly when the observation is
(projections of genuine 3D points are finite). -/

/-- A real 2D observation. -/
abbrev RPt2 := ℝ × ℝ

/-- A real 3D point. -/
abbrev RPt3 := ℝ × ℝ × ℝ

/-- Per-camera, per-point residual observed − projected
(Camera.reprojection_error); missing where the observation is missing. -/
def residual {C N : ℕ} (proj : Fin C → RPt3 → RPt2)
    (obs : Fin C → Fin N → Option RPt2) (p3ds : Fin N → RPt3)
    (c : Fin C) (n : Fin N) : Option RPt2 :=
  (obs c n).map (fun o => (o.1 - (proj c (p3ds n)).1, o.2 - (proj c (p3ds n)).2))

/-- Euclidean norm of a 2D residual. -/
noncomputable def norm2 (e : RPt2) : ℝ := Real.sqrt (e.1 ^ 2 + e.2 ^ 2)

/-- errors_norm after the errors_norm[~good] = 0 masking step: the norm of
a present residual, 0 where the residual is missing. -/
noncomputable def errNormMasked : Option RPt2 → ℝ
  | none => 0
  | some e => norm2 e

/-- The cameras with a valid observation of point n. -/
def validCams {C N : ℕ} (obs : Fin C → Fin N → Option RPt2) (n : Fin N) :
    Finset (Fin C) :=
  Finset.univ.filter (fun c => (obs c n).isSome)

/-- CameraGroup.reprojection_error(_, _, mean=True), per point: sum the
masked norms over all cameras and divide by the count of valid cameras;
the count is first replaced by NaN (here: the whole score becomes
missing) when it is below 1.5. -/
noncomputable def reprojectionErrorMean {C N : ℕ} (proj : Fin C → RPt3 → RPt2)
    (obs : Fin C → Fin N → Option RPt2) (p3ds : Fin N → RPt3) (n : Fin N) :
    Option ℝ :=
  let denom := ((validCams obs n).card : ℝ)
  if denom < 1.5 then none
  else some ((∑ c, errNormMasked (residual proj obs p3ds c n)) / denom)

/-- The specification-side score: the average of the Euclidean norms of
the residuals over exactly the cameras with a valid observation. -/
noncomputable def meanOverValidCams {C N : ℕ} (proj : Fin C → RPt3 → RPt2)
    (obs : Fin C → Fin N → Option RPt2) (p3ds : Fin N → RPt3) (n : Fin N) :
    ℝ :=
  (∑ c ∈ validCams obs n,
      norm2 (((obs c n).getD (0, 0)).1 - (proj c (p3ds n)).1,
             ((obs c n).getD (0, 0)).2 - (proj c (p3ds n)).2)) /
    ((validCams obs n).card : ℝ)

/-! CameraGroup.triangulate_possible, per point.  A point's input is the
list of observing cameras paired with their candidate counts (dict
insertion order: ascending camera index; candidates ascending).  The
numeric scoring of one candidate combination (subset_cameras, then
triangulate, then mean reprojection error) is an oracle from the list of
(camera, candidate) picks to an optional rational: none models a NaN
score, for which err < best_error is false. -/

/-- One pick: a (camera index, candidate index) pair. -/
abbrev Pick := ℕ × ℕ

/-- The per-camera option lists: every candidate of that camera (as a
some-pick, ascending) followed by the appended None entry. -/
def pickOptions (cams : List (ℕ × ℕ)) : List (List (Option Pick)) :=
  cams.map (fun ck =>
    ((List.range ck.2).map (fun x => some (ck.1, x))) ++ [none])

/-- itertools.product: Cartesian product of the option lists, the
rightmost factor varying fastest. -/
def comboProduct : List (List (Option Pick)) → List (List (Option Pick))
  | [] => [[]]
  | l :: rest => l.flatMap (fun x => (comboProduct rest).map (x :: ·))

/-- Drop the None entries of a combination, keeping the picks. -/
def picksOf (combo : List (Option Pick)) : List Pick :=
  combo.filterMap id

/-- The skip test of the enumeration: a combination is ignored when it
has fewer picks than min_cams and its pick count also differs from the
number of cameras that observed the point. -/
def comboValid (minCams nCamsMax : ℕ) (pk : List Pick) : Prop :=
  ¬(pk.length < minCams ∧ pk.length ≠ nCamsMax)

instance (minCams nCamsMax : ℕ) (pk : List Pick) :
    Decidable (comboValid minCams nCamsMax pk) := by
  unfold comboValid; infer_instance

/-- The enumeration loop of triangulate_possible over the remaining
combinations, carrying the best pick list so far and its error
(best_error starts at 200): a valid combination whose (non-NaN) error
strictly improves the best is recorded, and the loop breaks as soon as a
recorded best is below threshold. -/
def possibleLoop (score : List Pick → Option ℚ) (minCams nCamsMax : ℕ)
    (thr : ℚ) : List (List (Option Pick)) → Option (List Pick × ℚ) → ℚ →
    Option (List Pick × ℚ)
  | [], best, _ => best
  | combo :: rest, best, bestErr =>
    let pk := picksOf combo
    if pk.length < minCams ∧ pk.length ≠ nCamsMax then
      possibleLoop score minCams nCamsMax thr rest best bestErr
    else
      match score pk with
      | none => possibleLoop score minCams nCamsMax thr rest best bestErr
      | some e =>
        if e < bestErr then
          if e < thr then some (pk, e)
          else possibleLoop score minCams nCamsMax thr rest (some (pk, e)) e
        else possibleLoop score minCams nCamsMax thr rest best bestErr

/-- The same loop once the skipped combinations are gone: it consumes the
pick lists directly.  Used to state what the enumeration computes. -/
def possibleLoopKept (score : List Pick → Option ℚ) (thr : ℚ) :
    List (List Pick) → Option (List Pick × ℚ) → ℚ → Option (List Pick × ℚ)
  | [], best, _ => best
  | pk :: rest, best, bestErr =>
    match score pk with
    | none => possibleLoopKept score thr rest best bestErr
    | some e =>
      if e < bestErr then
        if e < thr then some (pk, e)
        else possibleLoopKept score thr rest (some (pk, e)) e
      else possibleLoopKept score thr rest best bestErr

/-- The loop with the break branch removed: the pure running-minimum
sweep.  Used to state what the enumeration computes when nothing is below
the threshold. -/
def minLoop (score : List Pick → Option ℚ) :
    List (List Pick) → Option (List Pick × ℚ) → ℚ → Option (List Pick × ℚ)
  | [], best, _ => best
  | pk :: rest, best, bestErr =>
    match score pk with
    | none => minLoop score rest best bestErr
    | some e =>
      if e < bestErr then minLoop score rest (some (pk, e)) e
      else minLoop score rest best bestErr

/-- One point of triangulate_possible: enumerate the Cartesian product of
pick-or-none over the observing cameras with best_error initialized to
200 px. -/
def triangulatePossiblePoint (cams : List (ℕ × ℕ))
    (score : List Pick → Option ℚ) (minCams : ℕ) (thr : ℚ) :
    Option (List Pick × ℚ) :=
  possibleLoop score minCams cams.length thr (comboProduct (pickOptions cams))
    none 200

/-- The kept (not skipped) combinations, as pick lists in enumeration
order. -/
def keptCombos (cams : List (ℕ × ℕ)) (minCams : ℕ) : List (List Pick) :=
  ((comboProduct (pickOptions cams)).map picksOf).filter
    (fun pk => decide (comboValid minCams cams.length pk))

/-- The committed per-point outputs of triangulate_possible for one
point: the 3D point slot, the picked-candidate list (the set of true
entries of the boolean picked mask row), the selected 2D points slot, and
the error entry.  When the search accepts nothing the preinitialized
values stay: NaN 3D output, all-false mask, NaN 2D points, error 0.  The
accepted 3D point itself comes from the triangulation oracle p3dOf. -/
def triangulatePossibleOutputs (cams : List (ℕ × ℕ))
    (score : List Pick → Option ℚ) (minCams : ℕ) (thr : ℚ)
    (p3dOf : List Pick → Pt3) :
    Option Pt3 × List Pick × Option (List Pick) × ℚ :=
  match triangulatePossiblePoint cams score minCams thr with
  | none => (none, [], none, 0)
  | some (pk, e) => (some (p3dOf pk), pk, some pk, e)

/-! Control skeleton of CameraGroup.bundle_adjust_iter.  The numeric
content of a round (resampling, triangulation, scoring, the mu clamp and
the below-mu filter) is collapsed into one prep event; the observed
median reprojection error of round i is an oracle ℕ → ℚ, since it
depends on the solver and on random resampling.  What matters for the
temporal claim is which events a round emits and in which order. -/

/-- Events of the iterative bundle adjustment driver: the data
preparation of round i (resample, triangulate, score, clamp mu, keep
below-mu points, resample the working subset), the early-stop check of
round i, the bundle-adjustment solve of round i (linear loss, on the
resampled working subset), and the final full solve after the loop. -/
inductive BAEvent where
  | prep : ℕ → BAEvent
  | check : ℕ → BAEvent
  | solve : ℕ → BAEvent
  | finalSolve : BAEvent
deriving DecidableEq

/-- The rounds of bundle_adjust_iter from round i with k rounds left:
each entered round prepares its data, computes the median error, checks
it against error_threshold — breaking out of the loop when it is below —
and only then runs the round's solve.  After the loop (or the break) the
final full-subset solve runs. -/
def baIterRounds (err : ℕ → ℚ) (thr : ℚ) : ℕ → ℕ → List BAEvent
  | _, 0 => [BAEvent.finalSolve]
  | i, k + 1 =>
    BAEvent.prep i :: BAEvent.check i ::
      (if err i < thr then [BAEvent.finalSolve]
       else BAEvent.solve i :: baIterRounds err thr (i + 1) k)

/-- Event trace of bundle_adjust_iter with n_iters rounds. -/
def baIterTrace (err : ℕ → ℚ) (thr : ℚ) (nIters : ℕ) : List BAEvent :=
  baIterRounds err thr 0 nIters

/-! Copy semantics of CameraGroup.subset_cameras, over an explicit store:
numpy arrays (matrix, dist, rvec, tvec) live in an array heap addressed
by naturals, the metadata dict in a separate dict heap; a camera object
holds addresses, a group holds camera objects plus the address of its
metadata dict.  Camera.copy allocates fresh cells; subset_cameras copies
the selected cameras but passes self.metadata through unchanged. -/

/-- The mutable store: an array heap, a metadata-dict heap, and the next
fresh address (shared by both heaps for simplicity). -/
structure Store where
  heap : ℕ → List ℚ
  mheap : ℕ → List (String × ℚ)
  next : ℕ

/-- Allocate a fresh array cell. -/
def Store.alloc (s : Store) (v : List ℚ) : ℕ × Store :=
  (s.next,
   { s with heap := fun a => if a = s.next then v else s.heap a,
            next := s.next + 1 })

/-- Overwrite an array cell in place (a numpy in-place mutation). -/
def Store.writeArr (s : Store) (a : ℕ) (v : List ℚ) : Store :=
  { s with heap := fun b => if b = a then v else s.heap b }

/-- Overwrite a metadata dict in place. -/
def Store.writeMeta (s : Store) (a : ℕ) (v : List (String × ℚ)) : Store :=
  { s with mheap := fun b => if b = a then v else s.mheap b }

/-- A camera object: heap addresses of its four arrays plus its value
fields. -/
structure CamObj where
  matrix : ℕ
  dist : ℕ
  rvec : ℕ
  tvec : ℕ
  size : Option (ℚ × ℚ)
  name : String
  extraDist : Bool
deriving DecidableEq

/-- The addresses a camera object owns. -/
def CamObj.addrs (c : CamObj) : List ℕ := [c.matrix, c.dist, c.rvec, c.tvec]

/-- Camera.copy: four fresh arrays holding copies of the current
contents, with the value fields carried over. -/
def CamObj.copy (s : Store) (c : CamObj) : CamObj × Store :=
  let p1 := s.alloc (s.heap c.matrix)
  let p2 := p1.2.alloc (s.heap c.dist)
  let p3 := p2.2.alloc (s.heap c.rvec)
  let p4 := p3.2.alloc (s.heap c.tvec)
  ({ matrix := p1.1, dist := p2.1, rvec := p3.1, tvec := p4.1,
     size := c.size, name := c.name, extraDist := c.extraDist }, p4.2)

/-- Copy a list of camera objects left to right. -/
def copyCams (s : Store) : List CamObj → List CamObj × Store
  | [] => ([], s)
  | c :: rest =>
    ((CamObj.copy s c).1 :: (copyCams (CamObj.copy s c).2 rest).1,
     (copyCams (CamObj.copy s c).2 rest).2)

/-- A camera group: its ordered cameras and the address of its metadata
dict. -/
structure CamGroupObj where
  cams : List CamObj
  metaAddr : ℕ
deriving DecidableEq

/-- A throwaway camera object used as the lookup default (indices are
in range in every use). -/
def dummyCam : CamObj :=
  { matrix := 0, dist := 0, rvec := 0, tvec := 0,
    size := none, name := "", extraDist := false }

/-- CameraGroup.subset_cameras(indices): copy each selected camera and
build a new group carrying self.metadata through by reference. -/
def subsetCameras (s : Store) (g : CamGroupObj) (ixs : List ℕ) :
    CamGroupObj × Store :=
  ({ cams := (copyCams s (ixs.map (fun i => g.cams.getD i dummyCam))).1,
     metaAddr := g.metaAddr },
   (copyCams s (ixs.map (fun i => g.cams.getD i dummyCam))).2)

/-! Persistence (CameraGroup.dump / CameraGroup.load via Camera.get_dict,
Camera.load_dict, CameraGroup.from_dicts).  The TOML layer is external
and value-faithful; what the source controls is the per-camera record,
the generated cam_i keys, and the lexicographic key sort on load. -/

/-- The persisted per-camera record: name, size, the 3x3 matrix rows,
distortions, rotation, translation, and the fisheye marker (absent for
pinhole cameras). -/
structure CamDict where
  name : String
  size : Option (ℚ × ℚ)
  matrix : List ℚ
  distortions : List ℚ
  rotation : List ℚ
  translation : List ℚ
  fisheyeFlag : Option Bool
deriving DecidableEq

/-- Camera.get_dict / FisheyeCamera.get_dict: serialize the camera state;
the fisheye variant adds fisheye=true. -/
def getDict (c : CamState) : CamDict :=
  { name := c.name
    size := c.size
    matrix := [c.m00, c.m01, c.m02, c.m10, c.m11, c.m12, c.m20, c.m21, c.m22]
    distortions := c.dist
    rotation := [c.r0, c.r1, c.r2]
    translation := [c.t0, c.t1, c.t2]
    fisheyeFlag := if c.fisheye then some true else none }

/-- Camera.load_dict on a freshly constructed camera of the class chosen
by CameraGroup.from_dicts (FisheyeCamera exactly when the record carries
fisheye=true): every persisted field is installed; extra_dist keeps the
constructor default false. -/
def camFromDict (d : CamDict) : CamState :=
  { m00 := d.matrix.getD 0 0, m01 := d.matrix.getD 1 0,
    m02 := d.matrix.getD 2 0, m10 := d.matrix.getD 3 0,
    m11 := d.matrix.getD 4 0, m12 := d.matrix.getD 5 0,
    m20 := d.matrix.getD 6 0, m21 := d.matrix.getD 7 0,
    m22 := d.matrix.getD 8 0,
    dist := d.distortions,
    r0 := d.rotation.getD 0 0, r1 := d.rotation.getD 1 0,
    r2 := d.rotation.getD 2 0,
    t0 := d.translation.getD 0 0, t1 := d.translation.getD 1 0,
    t2 := d.translation.getD 2 0,
    name := d.name, size := d.size,
    extraDist := false,
    fisheye := d.fisheyeFlag = some true }

/-- Decimal digits of a natural number, most significant first (the
digits of Python's str(i)); the first argument is recursion fuel. -/
def decDigitsAux : ℕ → ℕ → List ℕ
  | 0, _ => []
  | fuel + 1, n => if n < 10 then [n] else decDigitsAux fuel (n / 10) ++ [n % 10]

/-- Decimal digits of a natural number, most significant first. -/
def decDigits (n : ℕ) : List ℕ := decDigitsAux (n + 1) n

/-- The persisted key cam_{i}, as its list of character codes ('c' 'a'
'm' '_' followed by the decimal digits of i; digits d carry code
48 + d). -/
def camKey (i : ℕ) : List ℕ := [99, 97, 109, 95] ++ (decDigits i).map (48 + ·)

/-- The metadata key, as its list of character codes. -/
def metadataKey : List ℕ := [109, 101, 116, 97, 100, 97, 116, 97]

/-- Lexicographic order on code lists: exactly Python's string ≤ used by
sorted() on the persisted keys. -/
def keyLE : List ℕ → List ℕ → Bool
  | [], _ => true
  | _ :: _, [] => false
  | a :: as, b :: bs => if a < b then true else if b < a then false else keyLE as bs

/-- CameraGroup.dump: the keyed record written to disk — cam_i keys in
camera order (each holding that camera's dict) plus the metadata entry,
whose value is not a camera record. -/
def dumpGroup (cams : List CamState) : List (List ℕ × Option CamDict) :=
  (cams.enum.map (fun ci => (camKey ci.1, some (getDict ci.2))))
    ++ [(metadataKey, none)]

/-- CameraGroup.load: sort the persisted keys (Python sorted:
lexicographic on the strings; the keys are distinct, so any correct sort
computes the same list), drop the metadata key, and rebuild each camera
from its record in that key order. -/
def loadGroup (master : List (List ℕ × Option CamDict)) : List CamState :=
  (((master.insertionSort (fun a b => keyLE a.1 b.1 = true)).filter
      (fun kv => kv.1 ≠ metadataKey)).filterMap (fun kv => kv.2)).map
    camFromDict

/-- The camera fields the round-trip claim lists: name, size, intrinsic
matrix, distortions, rotation, translation, fisheye variant. -/
def persistedFields (c : CamState) :
    String × Option (ℚ × ℚ) × List ℚ × List ℚ ×
      (ℚ × ℚ × ℚ) × (ℚ × ℚ × ℚ) × Bool :=
  (c.name, c.size,
   [c.m00, c.m01, c.m02, c.m10, c.m11, c.m12, c.m20, c.m21, c.m22],
   c.dist, (c.r0, c.r1, c.r2), (c.t0, c.t1, c.t2), c.fisheye)

/-! Concrete instances used by counterexamples and witnesses. -/

/-- A fisheye camera with distinct focal lengths fx=2, fy=4. -/
def fisheyeFx2Fy4 : CamState := { defaultFisheye with m00 := 2, m11 := 4 }

/-- A sample scoring oracle over two cameras with two candidates each:
the first full combination scores 250, the second 100, every other
combination 999. -/
def sampleScore : List Pick → Option ℚ := fun pk =>
  if pk = [(0, 0), (1, 0)] then some 250
  else if pk = [(0, 0), (1, 1)] then some 100
  else some 999

/-- A store holding one camera's four arrays at addresses 0-3 and a
metadata dict at address 0 of the dict heap. -/
def storeA : Store :=
  { heap := fun a =>
      if a = 0 then [1, 0, 0, 0, 1, 0, 0, 0, 1]
      else if a = 1 then [0, 0, 0, 0, 0]
      else if a = 2 then [0, 0, 0]
      else if a = 3 then [0, 0, 0]
      else [],
    mheap := fun a => if a = 0 then [("calibrated", 1)] else [],
    next := 4 }

/-- The camera object living in storeA. -/
def camA : CamObj :=
  { matrix := 0, dist := 1, rvec := 2, tvec := 3,
    size := some (1000, 1000), name := "A", extraDist := false }

/-- The one-camera group living in storeA, metadata at dict address 0. -/
def groupA : CamGroupObj := { cams := [camA], metaAddr := 0 }

/-- Eleven distinct cameras, named by their index. -/
def elevenCams : List CamState :=
  (List.range 11).map (fun i => { name := Nat.repr i })

/-- First witness camera matrix [I | 0] for the exact two-view instance. -/
def matW0 : Mat34 := ![![1, 0, 0, 0], ![0, 1, 0, 0], ![0, 0, 1, 0]]

/-- Second witness camera matrix [I | t], t = (-1, 0, 0). -/
def matW1 : Mat34 := ![![1, 0, 0, -1], ![0, 1, 0, 0], ![0, 0, 1, 0]]

/-- The two witness projection matrices. -/
def matsW : Fin 2 → Mat34 := ![matW0, matW1]

/-- Exact observations of the world point (0, 0, 1) in both witness
cameras. -/
def obsW : Fin 2 → Fin 1 → Option Pt2 := fun c _ =>
  if c = 0 then some (0, 0) else some (-1, 0)

/-- An SVD oracle for the witness instance: it returns the kernel
direction of the witness DLT system. -/
def svdW : List Vec4 → Vec4 := fun _ => ![0, 0, 1, 1]

end Anipose

namespace Anipose

/-! Theorems.  Each claim of the specification gets one theorem (plus a
counterexample where the claim as stated fails, and a closed witness
where the theorem carries hypotheses). -/

/-- C1: the spec says bundle_adjust with only_extrinsics=True packs a
6-entry block per camera and leaves intrinsics and distortion untouched.
The code does the opposite for pinhole cameras: Camera.get_params /
set_params interpret their positional flag as optimize_intrinsics, so
only_extrinsics=True packs 16 entries and the commit rewrites the
intrinsic matrix and the distortion — while FisheyeCamera still gives the
flag its only_extrinsics meaning (6 entries).  Evaluating the embedding
at the failing input exhibits the inversion and the intrinsics
mutation. -/
theorem bundle_only_extrinsics_flag_inverted :
    (Camera.getParams defaultCamera true).length = 16 ∧
    (Camera.getParams defaultCamera false).length = 6 ∧
    (FisheyeCamera.getParams defaultFisheye true).length = 6 ∧
    (FisheyeCamera.getParams defaultFisheye false).length = 8 ∧
    nCamParamsBundle [defaultCamera, defaultCamera] true = 16 ∧
    nCamParamsBundle [defaultCamera, defaultCamera] false = 6 ∧
    (camSetParamsDispatch defaultCamera
        ((Camera.getParams defaultCamera true).set 6 5) true).m00 = 5 ∧
    defaultCamera.m00 = 1 := by
  decide

/-- C2 counterexample: the get-params/set-params round trip with
intrinsics included is not the identity on a FisheyeCamera whose focal
lengths differ — fx=2, fy=4 both come back as their mean 3. -/
theorem fisheye_params_roundtrip_not_identity :
    FisheyeCamera.setParams fisheyeFx2Fy4
        (FisheyeCamera.getParams fisheyeFx2Fy4 false) false ≠ fisheyeFx2Fy4 ∧
    (FisheyeCamera.setParams fisheyeFx2Fy4
        (FisheyeCamera.getParams fisheyeFx2Fy4 false) false).m00 = 3 ∧
    fisheyeFx2Fy4.m00 = 2 := by
  have h3 : (FisheyeCamera.setParams fisheyeFx2Fy4
      (FisheyeCamera.getParams fisheyeFx2Fy4 false) false).m00 = 3 := by
    show ((2 : ℚ) + 4) / 2 = 3
    norm_num
  refine ⟨fun h => ?_, h3, rfl⟩
  rw [h] at h3
  have : (2 : ℚ) = 3 := h3
  norm_num at this

/-- C2 amended: for a pinhole Camera with a five-entry distortion vector
and an upper-triangular intrinsic matrix with unit bottom-right entry the
round trip is the identity; for a FisheyeCamera the round trip always
preserves rotation, translation, skew and the principal point, and it is
the identity exactly in the fx=fy case with the non-optimized distortion
entries zero. -/
theorem params_roundtrip_characterization (c : CamState) :
    ((∃ d0 d1 d2 d3 d4, c.dist = [d0, d1, d2, d3, d4]) →
      c.m10 = 0 → c.m20 = 0 → c.m21 = 0 → c.m22 = 1 →
      Camera.setParams c (Camera.getParams c true) true = c) ∧
    ((FisheyeCamera.setParams c
        (FisheyeCamera.getParams c false) false).r0 = c.r0 ∧
     (FisheyeCamera.setParams c
        (FisheyeCamera.getParams c false) false).r1 = c.r1 ∧
     (FisheyeCamera.setParams c
        (FisheyeCamera.getParams c false) false).r2 = c.r2 ∧
     (FisheyeCamera.setParams c
        (FisheyeCamera.getParams c false) false).t0 = c.t0 ∧
     (FisheyeCamera.setParams c
        (FisheyeCamera.getParams c false) false).t1 = c.t1 ∧
     (FisheyeCamera.setParams c
        (FisheyeCamera.getParams c false) false).t2 = c.t2 ∧
     (FisheyeCamera.setParams c
        (FisheyeCamera.getParams c false) false).m01 = c.m01 ∧
     (FisheyeCamera.setParams c
        (FisheyeCamera.getParams c false) false).m02 = c.m02 ∧
     (FisheyeCamera.setParams c
        (FisheyeCamera.getParams c false) false).m12 = c.m12) ∧
    (c.m00 = c.m11 →
      (∃ a b, c.dist = [a, if c.extraDist then b else 0, 0, 0]) →
      FisheyeCamera.setParams c (FisheyeCamera.getParams c false) false = c) :=
  by
  refine ⟨?_, ?_, ?_⟩
  · rintro ⟨d0, d1, d2, d3, d4, hd⟩ h10 h20 h21 h22
    cases c
    simp only at hd h10 h20 h21 h22
    subst hd h10 h20 h21 h22
    rfl
  · exact ⟨rfl, rfl, rfl, rfl, rfl, rfl, rfl, rfl, rfl⟩
  · rintro hfoc ⟨a, b, hd⟩
    cases c with
    | mk m00 m01 m02 m10 m11 m12 m20 m21 m22 dist
        r0 r1 r2 t0 t1 t2 name size extraDist fisheye =>
      simp only at hfoc hd
      subst hfoc
      rw [hd]
      have hm : ∀ q : ℚ, (q + q) / 2 = q := fun q => by ring
      cases extraDist <;>
        simp [FisheyeCamera.getParams, FisheyeCamera.setParams, hm]

/-- In the rounds starting at index i with k rounds left, the solve of
round j occurs exactly when round j lies in the range and no round up to
and including j passed the early-stop check. -/
theorem solve_mem_baIterRounds (err : ℕ → ℚ) (thr : ℚ) :
    ∀ (k i j : ℕ), BAEvent.solve j ∈ baIterRounds err thr i k ↔
      (i ≤ j ∧ j < i + k ∧ ∀ m, i ≤ m → m ≤ j → ¬ err m < thr) := by
  intro k
  induction k with
  | zero =>
    intro i j
    simp only [baIterRounds, List.mem_singleton]
    constructor
    · intro h; exact absurd h (by simp)
    · rintro ⟨h1, h2, -⟩; omega
  | succ k ih =>
    intro i j
    simp only [baIterRounds, List.mem_cons]
    by_cases h : err i < thr
    · simp only [if_pos h, List.mem_singleton]
      constructor
      · rintro (hc | hc | hc) <;> exact absurd hc (by simp)
      · rintro ⟨h1, h2, hall⟩
        exact absurd h (hall i le_rfl h1)
    · simp only [if_neg h, List.mem_cons, ih (i + 1) j]
      constructor
      · rintro (hc | hc | hc | ⟨h1, h2, hall⟩)
        · exact absurd hc (by simp)
        · exact absurd hc (by simp)
        · have hj : j = i := by
            have := hc
            simp at this
            omega
          subst hj
          exact ⟨le_rfl, by omega, fun m hm hm' => by
            have : m = j := by omega
            subst this; exact h⟩
        · refine ⟨by omega, by omega, fun m hm hm' => ?_⟩
          by_cases hmi : m = i
          · subst hmi; exact h
          · exact hall m (by omega) hm'
      · rintro ⟨h1, h2, hall⟩
        rcases eq_or_lt_of_le h1 with rfl | hlt
        · right; right; left; rfl
        · right; right; right
          exact ⟨by omega, by omega, fun m hm hm' => hall m (by omega) hm'⟩

/-- When the solve of round j runs, its round's events occur in source
order: data preparation, then the early-stop check, then the solve. -/
theorem solve_sublist_baIterRounds (err : ℕ → ℚ) (thr : ℚ) :
    ∀ (k i j : ℕ), i ≤ j → j < i + k →
      (∀ m, i ≤ m → m ≤ j → ¬ err m < thr) →
      List.Sublist [BAEvent.prep j, BAEvent.check j, BAEvent.solve j]
        (baIterRounds err thr i k) := by
  intro k
  induction k with
  | zero => intro i j h1 h2 _; omega
  | succ k ih =>
    intro i j h1 h2 hall
    have hi : ¬ err i < thr := hall i le_rfl h1
    rcases eq_or_lt_of_le h1 with rfl | hlt
    · simp only [baIterRounds, if_neg hi]
      exact .cons₂ _ (.cons₂ _ (.cons₂ _ (List.nil_sublist _)))
    · simp only [baIterRounds, if_neg hi]
      exact .cons _ (.cons _ (.cons _
        (ih (i + 1) j (by omega) (by omega)
          (fun m hm hm' => hall m (by omega) hm'))))

/-- The final full-subset solve always runs, with or without an early
break. -/
theorem finalSolve_mem_baIterRounds (err : ℕ → ℚ) (thr : ℚ) :
    ∀ (k i : ℕ), BAEvent.finalSolve ∈ baIterRounds err thr i k := by
  intro k
  induction k with
  | zero => intro i; simp [baIterRounds]
  | succ k ih =>
    intro i
    by_cases h : err i < thr <;> simp [baIterRounds, h, ih]

/-- C3 counterexample: with the round-0 median error already below the
threshold, round 0 runs its early-stop check but never its solve — so
the claimed order (the round's solve happens, the check follows it) is
false on the code, which checks first and breaks before solving. -/
theorem bundle_adjust_iter_checks_before_solve_cex :
    BAEvent.check 0 ∈ baIterTrace (fun _ => 0) 1 3 ∧
    BAEvent.solve 0 ∉ baIterTrace (fun _ => 0) 1 3 := by decide

/-- C3 amended: in bundle_adjust_iter the early-stop check of a round
precedes that round's solve; the solve of round i runs exactly when no
round up to i passed the check, in which case the round emits prep,
check, solve in that order; a round whose median error is below
error_threshold skips its solve (the loop breaks); and the final
full-subset solve always follows. -/
theorem bundle_adjust_iter_round_order (err : ℕ → ℚ) (thr : ℚ) (n i : ℕ) :
    (BAEvent.solve i ∈ baIterTrace err thr n ↔
       i < n ∧ ∀ j, j ≤ i → ¬ err j < thr) ∧
    (BAEvent.solve i ∈ baIterTrace err thr n →
       List.Sublist [BAEvent.prep i, BAEvent.check i, BAEvent.solve i]
         (baIterTrace err thr n)) ∧
    (err i < thr → BAEvent.solve i ∉ baIterTrace err thr n) ∧
    BAEvent.finalSolve ∈ baIterTrace err thr n := by
  have hmem := solve_mem_baIterRounds err thr n 0 i
  refine ⟨?_, ?_, ?_, finalSolve_mem_baIterRounds err thr n 0⟩
  · rw [baIterTrace, hmem]
    constructor
    · rintro ⟨-, h2, hall⟩
      exact ⟨by omega, fun j hj => hall j (Nat.zero_le j) hj⟩
    · rintro ⟨h2, hall⟩
      exact ⟨Nat.zero_le i, by omega, fun m _ hm => hall m hm⟩
  · intro hs
    rw [baIterTrace, hmem] at hs
    exact solve_sublist_baIterRounds err thr n 0 i hs.1 hs.2.1 hs.2.2
  · intro hlt hs
    rw [baIterTrace, hmem] at hs
    exact hs.2.2 i (Nat.zero_le i) le_rfl hlt

/-- C3 witness: with every round error above threshold both rounds solve
in prep-check-solve order, and with the error below threshold the solve
of the later round is skipped. -/
theorem bundle_adjust_iter_round_order_witness :
    BAEvent.solve 0 ∈ baIterTrace (fun _ => 1) (1 / 2) 2 ∧
    List.Sublist [BAEvent.prep 0, BAEvent.check 0, BAEvent.solve 0]
      (baIterTrace (fun _ => 1) (1 / 2) 2) ∧
    BAEvent.solve 1 ∉ baIterTrace (fun _ => 0) 1 2 := by
  have h1 := bundle_adjust_iter_round_order (fun _ => 1) (1 / 2) 2 0
  have h2 := bundle_adjust_iter_round_order (fun _ => 0) 1 2 1
  have hs : BAEvent.solve 0 ∈ baIterTrace (fun _ => 1) (1 / 2) 2 :=
    h1.1.mpr ⟨by omega, fun j _ => by norm_num⟩
  exact ⟨hs, h1.2.1 hs, h2.2.2.1 (by norm_num)⟩

/-- Camera.copy allocates its four arrays at the next four fresh
addresses. -/
theorem copy_addrs (s : Store) (c : CamObj) :
    (CamObj.copy s c).1.addrs = [s.next, s.next + 1, s.next + 2, s.next + 3] ∧
    (CamObj.copy s c).2.next = s.next + 4 := ⟨rfl, rfl⟩

/-- Copying a camera leaves every previously allocated array cell
untouched. -/
theorem copy_heap_below (s : Store) (c : CamObj) (b : ℕ) (hb : b < s.next) :
    (CamObj.copy s c).2.heap b = s.heap b := by
  simp only [CamObj.copy, Store.alloc]
  have h1 : b ≠ s.next := by omega
  have h2 : b ≠ s.next + 1 := by omega
  have h3 : b ≠ s.next + 2 := by omega
  have h4 : b ≠ s.next + 3 := by omega
  simp [h1, h2, h3, h4]

/-- Copying cameras never decreases the fresh-address counter. -/
theorem copyCams_next_mono : ∀ (l : List CamObj) (s : Store),
    s.next ≤ (copyCams s l).2.next := by
  intro l
  induction l with
  | nil => intro s; exact le_rfl
  | cons c rest ih =>
    intro s
    have h1 : (CamObj.copy s c).2.next = s.next + 4 := rfl
    calc s.next ≤ (CamObj.copy s c).2.next := by omega
    _ ≤ (copyCams (CamObj.copy s c).2 rest).2.next := ih _
    _ = (copyCams s (c :: rest)).2.next := rfl

/-- Every array address owned by a copied camera is fresh: at or above
the allocation counter the copy started from. -/
theorem copyCams_fresh : ∀ (l : List CamObj) (s : Store),
    ∀ c' ∈ (copyCams s l).1, ∀ a ∈ c'.addrs, s.next ≤ a := by
  intro l
  induction l with
  | nil => intro s c' hc'; exact absurd hc' (by simp [copyCams])
  | cons c rest ih =>
    intro s c' hc' a ha
    rcases List.mem_cons.mp hc' with rfl | hmem
    · rw [(copy_addrs s c).1] at ha
      simp only [List.mem_cons, List.mem_singleton] at ha
      rcases ha with rfl | rfl | rfl | (rfl | h)
      · exact le_rfl
      · omega
      · omega
      · omega
      · exact absurd h (List.not_mem_nil a)
    · have := ih (CamObj.copy s c).2 c' hmem a ha
      have h1 : (CamObj.copy s c).2.next = s.next + 4 := rfl
      omega

/-- Copying cameras leaves every previously allocated array cell
untouched. -/
theorem copyCams_heap_below : ∀ (l : List CamObj) (s : Store) (b : ℕ),
    b < s.next → (copyCams s l).2.heap b = s.heap b := by
  intro l
  induction l with
  | nil => intro s b _; rfl
  | cons c rest ih =>
    intro s b hb
    have h1 : (CamObj.copy s c).2.next = s.next + 4 := rfl
    calc (copyCams s (c :: rest)).2.heap b
        = (copyCams (CamObj.copy s c).2 rest).2.heap b := rfl
    _ = (CamObj.copy s c).2.heap b := ih _ b (by omega)
    _ = s.heap b := copy_heap_below s c b hb

/-- Writing one array cell does not change any other cell. -/
theorem writeArr_read_ne (s : Store) (a b : ℕ) (v : List ℚ) (h : b ≠ a) :
    (s.writeArr a v).heap b = s.heap b := by
  simp [Store.writeArr, h]

/-- C4 counterexample: subset_cameras shares the metadata dict with the
parent group — writing the sub-group's metadata changes what the parent
group reads (from calibrated=1 to calibrated=2), so the sub-group is not
an independent copy sharing no mutable state. -/
theorem subset_cameras_metadata_aliased :
    ((subsetCameras storeA groupA [0]).2.writeMeta
        (subsetCameras storeA groupA [0]).1.metaAddr
        [("calibrated", 2)]).mheap groupA.metaAddr = [("calibrated", 2)] ∧
    (subsetCameras storeA groupA [0]).2.mheap groupA.metaAddr
      = [("calibrated", 1)] := by decide

/-- C4 amended: the cameras of the sub-group are deep copies — their
arrays live at fresh addresses, the parent's cells are untouched by the
subset operation, and writes through a sub-group camera's arrays never
change a parent camera's arrays (nor the reverse) — while the metadata
dict is aliased between parent and sub-group. -/
theorem subset_cameras_copy_semantics (s : Store) (g : CamGroupObj)
    (ixs : List ℕ)
    (hwf : ∀ c ∈ g.cams, ∀ a ∈ CamObj.addrs c, a < s.next) :
    (subsetCameras s g ixs).1.metaAddr = g.metaAddr ∧
    (∀ c' ∈ (subsetCameras s g ixs).1.cams, ∀ a ∈ CamObj.addrs c',
       s.next ≤ a) ∧
    (∀ b : ℕ, b < s.next → (subsetCameras s g ixs).2.heap b = s.heap b) ∧
    (∀ c' ∈ (subsetCameras s g ixs).1.cams, ∀ a ∈ CamObj.addrs c', ∀ v,
       ∀ c ∈ g.cams, ∀ b ∈ CamObj.addrs c,
         (((subsetCameras s g ixs).2.writeArr a v).heap b =
           (subsetCameras s g ixs).2.heap b)) ∧
    (∀ c ∈ g.cams, ∀ b ∈ CamObj.addrs c, ∀ v,
       ∀ c' ∈ (subsetCameras s g ixs).1.cams, ∀ a ∈ CamObj.addrs c',
         (((subsetCameras s g ixs).2.writeArr b v).heap a =
           (subsetCameras s g ixs).2.heap a)) := by
  have hfresh : ∀ c' ∈ (subsetCameras s g ixs).1.cams,
      ∀ a ∈ CamObj.addrs c', s.next ≤ a :=
    fun c' hc' a ha => copyCams_fresh _ s c' hc' a ha
  refine ⟨rfl, hfresh, ?_, ?_, ?_⟩
  · intro b hb
    exact copyCams_heap_below _ s b hb
  · intro c' hc' a ha v c hc b hb
    have h1 : s.next ≤ a := hfresh c' hc' a ha
    have h2 : b < s.next := hwf c hc b hb
    exact writeArr_read_ne _ a b v (by omega)
  · intro c hc b hb v c' hc' a ha
    have h1 : s.next ≤ a := hfresh c' hc' a ha
    have h2 : b < s.next := hwf c hc b hb
    exact writeArr_read_ne _ b a v (by omega)

/-- C4 witness: in the concrete one-camera store, a write through the
copied camera's matrix array (address 4) does not change the parent
camera's matrix, and a write through the parent camera's distortion
array does not change the copy's. -/
theorem subset_cameras_copy_semantics_witness :
    (subsetCameras storeA groupA [0]).1.metaAddr = groupA.metaAddr ∧
    (((subsetCameras storeA groupA [0]).2.writeArr 4 [9]).heap camA.matrix =
      (subsetCameras storeA groupA [0]).2.heap camA.matrix) ∧
    (((subsetCameras storeA groupA [0]).2.writeArr camA.dist [9]).heap 5 =
      (subsetCameras storeA groupA [0]).2.heap 5) := by
  have h := subset_cameras_copy_semantics storeA groupA [0] (by decide)
  refine ⟨h.1, ?_, ?_⟩
  · exact h.2.2.2.1
      { matrix := 4, dist := 5, rvec := 6, tvec := 7,
        size := some (1000, 1000), name := "A", extraDist := false }
      (by decide) 4 (by decide) [9] camA (by decide) camA.matrix (by decide)
  · exact h.2.2.2.2 camA (by decide) camA.dist (by decide) [9]
      { matrix := 4, dist := 5, rvec := 6, tvec := 7,
        size := some (1000, 1000), name := "A", extraDist := false }
      (by decide) 5 (by decide)

/-- Rebuilding a camera from its persisted record restores every
persisted field (the replacement camera starts from class defaults, so
only extra_dist, which is not persisted, is lost). -/
theorem fromDict_getDict (c : CamState) :
    persistedFields (camFromDict (getDict c)) = persistedFields c := by
  cases c with
  | mk m00 m01 m02 m10 m11 m12 m20 m21 m22 dist
      r0 r1 r2 t0 t1 t2 name size extraDist fisheye =>
    cases fisheye <;> rfl

/-- Single-digit cam_i keys sort in index order. -/
theorem camKey_le_upto_ten :
    ∀ i < 10, ∀ j < 10, i ≤ j → keyLE (camKey i) (camKey j) = true := by decide

/-- Every cam_i key sorts before the metadata key ('c' < 'm'). -/
theorem camKey_le_metadataKey (i : ℕ) : keyLE (camKey i) metadataKey = true := rfl

/-- No cam_i key equals the metadata key. -/
theorem camKey_ne_metadataKey (i : ℕ) : camKey i ≠ metadataKey := by
  simp [camKey, metadataKey]

/-- Indices produced by enumerating from k stay in [k, k + length). -/
theorem enumFrom_fst_bounds :
    ∀ (l : List CamState) (k : ℕ) (x : ℕ × CamState),
      x ∈ l.enumFrom k → k ≤ x.1 ∧ x.1 < k + l.length := by
  intro l
  induction l with
  | nil => intro k x hx; exact absurd hx (by simp)
  | cons a t ih =>
    intro k x hx
    rcases List.mem_cons.mp hx with rfl | h
    · simp
    · have := ih (k + 1) x h
      simp only [List.length_cons]
      omega

/-- With at most ten cameras the generated keys are pairwise sorted. -/
theorem pairwise_camKeys :
    ∀ (l : List CamState) (k : ℕ), k + l.length ≤ 10 →
      List.Pairwise (fun a b => keyLE a.1 b.1 = true)
        ((l.enumFrom k).map (fun ci => (camKey ci.1, some (getDict ci.2)))) := by
  intro l
  induction l with
  | nil => intro k _; simp
  | cons a t ih =>
    intro k hk
    simp only [List.enumFrom, List.map_cons, List.pairwise_cons]
    constructor
    · intro y hy
      rcases List.mem_map.mp hy with ⟨ci, hci, rfl⟩
      have hb := enumFrom_fst_bounds t (k + 1) ci hci
      simp only [List.length_cons] at hk
      exact camKey_le_upto_ten k (by omega) ci.1 (by omega) (by omega)
    · exact ih (k + 1) (by simp at hk ⊢; omega)

/-- With at most ten cameras the dumped record is already in sorted key
order. -/
theorem dump_keys_sorted (cams : List CamState) (h : cams.length ≤ 10) :
    List.Pairwise (fun a b => keyLE a.1 b.1 = true) (dumpGroup cams) := by
  rw [dumpGroup, List.pairwise_append]
  refine ⟨pairwise_camKeys cams 0 (by omega), by simp, ?_⟩
  intro x hx y hy
  rcases List.mem_map.mp hx with ⟨ci, hci, rfl⟩
  rcases List.mem_singleton.mp hy with rfl
  exact camKey_le_metadataKey ci.1

/-- Extracting the camera records from the keyed entries recovers the
per-camera dicts in order. -/
theorem filterMap_snd_mapped : ∀ (l : List (ℕ × CamState)),
    ((l.map (fun ci => (camKey ci.1, some (getDict ci.2)))).filterMap
        (fun kv => kv.2))
      = l.map (fun ci => getDict ci.2) := by
  intro l
  induction l with
  | nil => rfl
  | cons a t ih => simp [ih]

/-- With at most ten cameras, load after dump rebuilds each camera from
its own record, in the original order. -/
theorem loadGroup_dumpGroup (cams : List CamState) (h : cams.length ≤ 10) :
    loadGroup (dumpGroup cams) = cams.map (fun c => camFromDict (getDict c)) := by
  unfold loadGroup
  rw [List.Sorted.insertionSort_eq (dump_keys_sorted cams h)]
  rw [dumpGroup, List.filter_append]
  have h2 : List.filter (fun kv => decide (kv.1 ≠ metadataKey))
      [((metadataKey : List ℕ), (none : Option CamDict))] = [] := by
    simp [List.filter]
  have h1 : List.filter (fun kv => decide (kv.1 ≠ metadataKey))
      (cams.enum.map (fun ci => (camKey ci.1, some (getDict ci.2))))
      = cams.enum.map (fun ci => (camKey ci.1, some (getDict ci.2))) := by
    apply List.filter_eq_self.mpr
    intro x hx
    rcases List.mem_map.mp hx with ⟨ci, hci, rfl⟩
    simp [camKey_ne_metadataKey]
  rw [h1, h2, List.append_nil, filterMap_snd_mapped, List.map_map]
  have : (camFromDict ∘ fun ci : ℕ × CamState => getDict ci.2)
      = (fun ci : ℕ × CamState => (camFromDict ∘ getDict) ci.2) := rfl
  rw [this]
  rw [show (fun ci : ℕ × CamState => (camFromDict ∘ getDict) ci.2)
        = (camFromDict ∘ getDict) ∘ Prod.snd from rfl]
  rw [← List.map_map, List.enum_map_snd]
  rfl

/-- C8 amended: the dump/load round trip reproduces every persisted
camera field (name, size, matrix, distortions, rotation, translation,
fisheye variant) in the original camera order whenever the group has at
most ten cameras; with eleven or more, lexicographic key sorting permutes
the order (see the counterexample). -/
theorem dump_load_roundtrip_upto_ten (cams : List CamState)
    (h : cams.length ≤ 10) :
    (loadGroup (dumpGroup cams)).map persistedFields
      = cams.map persistedFields := by
  rw [loadGroup_dumpGroup cams h, List.map_map]
  apply List.map_congr_left
  intro c _
  exact fromDict_getDict c

/-- C8 witness: the round trip at a concrete two-camera group (one
pinhole, one fisheye). -/
theorem dump_load_roundtrip_upto_ten_witness :
    (loadGroup (dumpGroup [defaultCamera, defaultFisheye])).map persistedFields
      = [defaultCamera, defaultFisheye].map persistedFields :=
  dump_load_roundtrip_upto_ten [defaultCamera, defaultFisheye] (by decide)

/-- C8 counterexample: with eleven cameras the loaded order is not the
dumped order — sorted() puts cam_10 before cam_2, so camera 10 comes
back in position 2. -/
theorem dump_load_reorders_eleven_cameras :
    (loadGroup (dumpGroup elevenCams)).map (fun c => c.name) =
      ["0", "1", "10", "2", "3", "4", "5", "6", "7", "8", "9"] ∧
    elevenCams.map (fun c => c.name) =
      ["0", "1", "2", "3", "4", "5", "6", "7", "8", "9", "10"] ∧
    (loadGroup (dumpGroup elevenCams)).map (fun c => c.name) ≠
      elevenCams.map (fun c => c.name) := by decide
/-- With every confidence weight equal to 1 the weighted DLT rows are
exactly the unweighted rows. -/
theorem dltRowsWeighted_ones : ∀ (sub : List (Pt2 × Mat34)),
    dltRowsWeighted (sub.map (fun pm => (pm, 1))) = dltRows sub := by
  intro sub
  induction sub with
  | nil => rfl
  | cons pm t ih =>
    simp only [List.map_cons, dltRowsWeighted, dltRows, List.flatMap_cons,
      one_mul] at ih ⊢
    rw [ih]

/-- With weights=None every valid observation is paired with weight 1. -/
theorem goodListWeighted_none {C N : ℕ} (obs : Fin C → Fin N → Option Pt2)
    (mats : Fin C → Mat34) (n : Fin N) :
    goodListWeighted obs mats none n
      = (goodList obs mats n).map (fun pm => (pm, 1)) := by
  unfold goodListWeighted goodList
  have key : ∀ l : List (Fin C),
      l.filterMap (fun c => (obs c n).map (fun p => ((p, mats c), (1 : ℚ))))
        = (l.filterMap (fun c => (obs c n).map (fun p => (p, mats c)))).map
            (fun pm => (pm, 1)) := by
    intro l
    induction l with
    | nil => rfl
    | cons c t ih => cases h : obs c n <;> simp [List.filterMap_cons, h, ih]
  exact key _

/-- C9: weighted linear triangulation with every weight 1 computes
exactly the same 3D point as unweighted linear triangulation
(triangulate_simple), for every input and every SVD kernel; consequently
CameraGroup.triangulate_weighted with weights=None coincides with the
non-fast CameraGroup.triangulate on all inputs. -/
theorem weighted_triangulation_unit_weights_eq :
    (∀ (svd : List Vec4 → Vec4) (sub : List (Pt2 × Mat34)),
       Anipose.triangulate_weighted svd (sub.map (fun pm => (pm, 1)))
         = triangulate_simple svd sub) ∧
    (∀ (C N : ℕ) (svd : List Vec4 → Vec4) (uflag : Bool)
       (undist : Fin C → Pt2 → Pt2) (mats : Fin C → Mat34)
       (obs : Fin C → Fin N → Option Pt2),
       CameraGroup.triangulate_weighted svd uflag undist mats obs none
         = CameraGroup.triangulate svd uflag undist mats obs) := by
  have hcore : ∀ (svd : List Vec4 → Vec4) (sub : List (Pt2 × Mat34)),
      Anipose.triangulate_weighted svd (sub.map (fun pm => (pm, 1)))
        = triangulate_simple svd sub := by
    intro svd sub
    unfold Anipose.triangulate_weighted triangulate_simple
    rw [dltRowsWeighted_ones]
  refine ⟨hcore, ?_⟩
  intro C N svd uflag undist mats obs
  funext n
  unfold CameraGroup.triangulate_weighted CameraGroup.triangulate
  rw [goodListWeighted_none]
  dsimp only
  rw [List.length_map, hcore]

/-- C7: reprojection_error with mean=True assigns each point the average
of the Euclidean norms of its residuals over exactly the cameras with a
valid observation of it, and a missing (NaN) score when fewer than two
cameras observe it. -/
theorem reprojection_error_mean_spec {C N : ℕ} (proj : Fin C → RPt3 → RPt2)
    (obs : Fin C → Fin N → Option RPt2) (p3ds : Fin N → RPt3) (n : Fin N) :
    reprojectionErrorMean proj obs p3ds n =
      if 2 ≤ (validCams obs n).card
      then some (meanOverValidCams proj obs p3ds n)
      else none := by
  unfold reprojectionErrorMean meanOverValidCams
  rcases le_or_lt 2 (validCams obs n).card with h | h
  · have hnot : ¬ (((validCams obs n).card : ℝ) < 1.5) := by
      have : (2 : ℝ) ≤ ((validCams obs n).card : ℝ) := by exact_mod_cast h
      linarith
    rw [if_neg hnot, if_pos h]
    congr 1
    congr 1
    rw [← Finset.sum_filter_add_sum_filter_not Finset.univ
      (fun c => (obs c n).isSome) (fun c => errNormMasked (residual proj obs p3ds c n))]
    have hz : ∑ c ∈ Finset.univ.filter (fun c => ¬ (obs c n).isSome),
        errNormMasked (residual proj obs p3ds c n) = 0 := by
      apply Finset.sum_eq_zero
      intro c hc
      rcases Finset.mem_filter.mp hc with ⟨-, hnone⟩
      have : obs c n = none := Option.not_isSome_iff_eq_none.mp hnone
      simp [residual, this, errNormMasked]
    rw [hz, add_zero]
    apply Finset.sum_congr rfl
    intro c hc
    rcases Finset.mem_filter.mp (by exact hc : c ∈ Finset.univ.filter
      (fun c => (obs c n).isSome)) with ⟨-, hsome⟩
    rcases Option.isSome_iff_exists.mp hsome with ⟨o, ho⟩
    simp [residual, ho, errNormMasked]
  · have hlt : (((validCams obs n).card : ℝ) < 1.5) := by
      have : ((validCams obs n).card : ℝ) ≤ 1 := by
        have : (validCams obs n).card ≤ 1 := by omega
        exact_mod_cast this
      linarith
    rw [if_pos hlt, if_neg (by omega)]
/-- The 4-dimensional dot product, written out. -/
theorem dot4_expand (a b : Vec4) :
    dot4 a b = a 0 * b 0 + a 1 * b 1 + a 2 * b 2 + a 3 * b 3 := by
  simp [dot4, Fin.sum_univ_four]

/-- Dot product of a DLT row x*u - v against w. -/
theorem dot4_row (x : ℚ) (u v w : Vec4) :
    dot4 (fun j => x * u j - v j) w = x * dot4 u w - dot4 v w := by
  unfold dot4
  rw [Finset.mul_sum, ← Finset.sum_sub_distrib]
  apply Finset.sum_congr rfl
  intro j _
  ring

/-- Undistortion preserves which observations are present, so the DLT
subset has exactly one entry per valid raw observation. -/
theorem goodList_length_eq_validCount {C N : ℕ} (uflag : Bool)
    (undist : Fin C → Pt2 → Pt2) (obs : Fin C → Fin N → Option Pt2)
    (mats : Fin C → Mat34) (n : Fin N) :
    (goodList (undistortAll uflag undist obs) mats n).length
      = validCount obs n := by
  unfold goodList validCount undistortAll
  have key : ∀ (f : Fin C → Option Pt2),
      (∀ c, (f c).isSome = (obs c n).isSome) →
      ∀ l : List (Fin C),
        (l.filterMap (fun c => (f c).map (fun p => (p, mats c)))).length
          = (l.filter (fun c => (obs c n).isSome)).length := by
    intro f hf l
    induction l with
    | nil => rfl
    | cons c t ih =>
      rw [List.filterMap_cons, List.filter_cons]
      cases hc : f c with
      | none =>
        have hobs : (obs c n).isSome = false := by rw [← hf c, hc]; rfl
        simp [hobs, ih]
      | some p =>
        have hobs : (obs c n).isSome = true := by rw [← hf c, hc]; rfl
        simp [hobs, ih]
  exact key _ (fun c => by cases uflag <;> cases h : obs c n <;> simp) _

/-- Every entry of the DLT subset comes from a camera that observed the
point. -/
theorem mem_goodList {C N : ℕ} (obs : Fin C → Fin N → Option Pt2)
    (mats : Fin C → Mat34) (n : Fin N) (p : Pt2) (m : Mat34)
    (h : (p, m) ∈ goodList obs mats n) :
    ∃ c, obs c n = some p ∧ m = mats c := by
  unfold goodList at h
  rcases List.mem_filterMap.mp h with ⟨c, -, hmap⟩
  rcases Option.map_eq_some'.mp hmap with ⟨o, ho, heq⟩
  exact ⟨c, by rw [ho, (Prod.mk.injEq _ _ _ _).mp heq |>.1],
    ((Prod.mk.injEq _ _ _ _).mp heq).2.symm⟩

/-- C6: in CameraGroup.triangulate (non-fast path) every point with
fewer than two valid observations comes out missing; and every point
with at least two valid observations whose (undistorted) observations
are exact projections of a world point X, over a non-degenerate set of
views (the stacked DLT system has the line through homog X as its
kernel), is triangulated to exactly X — in particular to a finite,
non-missing 3D point — for every SVD kernel that returns a nonzero
vector annihilated by the system. -/
theorem triangulate_missing_and_nondegenerate {C N : ℕ}
    (svd : List Vec4 → Vec4) (uflag : Bool) (undist : Fin C → Pt2 → Pt2)
    (mats : Fin C → Mat34) (obs : Fin C → Fin N → Option Pt2) (n : Fin N) :
    (validCount obs n < 2 →
      CameraGroup.triangulate svd uflag undist mats obs n = none) ∧
    (∀ X : Pt3,
      2 ≤ validCount obs n →
      (∀ c p, undistortAll uflag undist obs c n = some p →
        p.1 * dot4 (mats c 2) (homog X) = dot4 (mats c 0) (homog X) ∧
        p.2 * dot4 (mats c 2) (homog X) = dot4 (mats c 1) (homog X)) →
      (∀ w : Vec4,
        (∀ r ∈ dltRows (goodList (undistortAll uflag undist obs) mats n),
          dot4 r w = 0) →
        ∃ k : ℚ, ∀ i, w i = k * homog X i) →
      (∀ r ∈ dltRows (goodList (undistortAll uflag undist obs) mats n),
        dot4 r (svd (dltRows (goodList (undistortAll uflag undist obs) mats n)))
          = 0) →
      svd (dltRows (goodList (undistortAll uflag undist obs) mats n))
        ≠ (fun _ => 0) →
      CameraGroup.triangulate svd uflag undist mats obs n = some X) := by
  constructor
  · intro h
    unfold CameraGroup.triangulate
    dsimp only
    rw [if_neg]
    rw [goodList_length_eq_validCount]
    omega
  · intro X hcount hexact hker hsvd hnz
    have hlen : 2 ≤ (goodList (undistortAll uflag undist obs) mats n).length := by
      rw [goodList_length_eq_validCount]; exact hcount
    unfold CameraGroup.triangulate
    dsimp only
    rw [if_pos hlen]
    obtain ⟨k, hk⟩ := hker _ hsvd
    have hk0 : k ≠ 0 := by
      intro h0
      apply hnz
      funext i
      rw [hk i, h0, zero_mul]
    have h3 : svd (dltRows (goodList (undistortAll uflag undist obs) mats n)) 3
        = k := by
      rw [hk 3]
      show k * 1 = k
      rw [mul_one]
    obtain ⟨x1, x2, x3⟩ := X
    unfold triangulate_simple dehomog
    rw [hk 0, hk 1, hk 2, h3]
    show some (k * x1 / k, k * x2 / k, k * x3 / k) = some (x1, x2, x3)
    rw [mul_div_cancel_left₀ x1 hk0, mul_div_cancel_left₀ x2 hk0,
      mul_div_cancel_left₀ x3 hk0]
/-- C6 witness: two exact unit cameras observing the world point
(0, 0, 1) triangulate it back exactly, and a point observed by no camera
comes out missing. -/
theorem triangulate_missing_and_nondegenerate_witness :
    CameraGroup.triangulate svdW false (fun _ p => p) matsW obsW 0
      = some ((0 : ℚ), (0 : ℚ), (1 : ℚ)) ∧
    validCount obsW (0 : Fin 1) = 2 ∧
    CameraGroup.triangulate svdW false (fun _ p => p) matsW
      (fun (_ : Fin 2) (_ : Fin 1) => (none : Option Pt2)) 0 = none := by
  have hsub : goodList (undistortAll false (fun _ p => p) obsW) matsW (0 : Fin 1)
      = [((0, 0), matsW 0), ((-1, 0), matsW 1)] := rfl
  refine ⟨?_, rfl, ?_⟩
  · apply (triangulate_missing_and_nondegenerate svdW false (fun _ p => p)
      matsW obsW 0).2 ((0 : ℚ), (0 : ℚ), (1 : ℚ)) (by decide)
    · -- exactness of the two observations
      intro c p hp
      fin_cases c <;>
        simp only [undistortAll, if_false, Option.map, obsW] at hp
      · have hp' : p = ((0 : ℚ), (0 : ℚ)) := by
          simpa using hp.symm
        subst hp'
        constructor <;>
          · simp only [dot4_expand]
            norm_num [matsW, matW0, matW1, homog,
              Matrix.cons_val_zero, Matrix.cons_val_one, Matrix.head_cons,
              Matrix.cons_val_two, Matrix.cons_val_three, Matrix.vecTail,
              Matrix.vecHead]
      · have hp' : p = ((-1 : ℚ), (0 : ℚ)) := by
          simpa using hp.symm
        subst hp'
        constructor <;>
          · simp only [dot4_expand]
            norm_num [matsW, matW0, matW1, homog,
              Matrix.cons_val_zero, Matrix.cons_val_one, Matrix.head_cons,
              Matrix.cons_val_two, Matrix.cons_val_three, Matrix.vecTail,
              Matrix.vecHead]
    · -- the DLT system has a one-dimensional kernel spanned by (0,0,1,1)
      intro w hw
      rw [hsub] at hw
      simp only [dltRows, List.flatMap_cons, List.flatMap_nil,
        List.cons_append, List.nil_append, List.append_nil, List.mem_cons,
        List.not_mem_nil, or_false] at hw
      have h1 := hw _ (Or.inl rfl)
      have h2 := hw _ (Or.inr (Or.inl rfl))
      have h3 := hw _ (Or.inr (Or.inr (Or.inl rfl)))
      simp only [dot4_expand] at h1 h2 h3
      norm_num [matsW, matW0, matW1,
        Matrix.cons_val_zero, Matrix.cons_val_one, Matrix.head_cons,
        Matrix.cons_val_two, Matrix.cons_val_three, Matrix.vecTail,
        Matrix.vecHead] at h1 h2 h3
      refine ⟨w 2, fun i => ?_⟩
      fin_cases i <;>
        simp [homog,
          Matrix.cons_val_zero, Matrix.cons_val_one, Matrix.head_cons,
          Matrix.cons_val_two, Matrix.cons_val_three, Matrix.vecTail,
          Matrix.vecHead] <;>
        linarith
    · -- the SVD oracle returns a kernel vector
      intro r hr
      rw [hsub] at hr
      simp only [dltRows, List.flatMap_cons, List.flatMap_nil,
        List.cons_append, List.nil_append, List.append_nil, List.mem_cons,
        List.not_mem_nil, or_false] at hr
      rcases hr with rfl | rfl | rfl | rfl <;>
        · simp only [dot4_expand]
          norm_num [svdW, matsW, matW0, matW1,
            Matrix.cons_val_zero, Matrix.cons_val_one, Matrix.head_cons,
            Matrix.cons_val_two, Matrix.cons_val_three, Matrix.vecTail,
            Matrix.vecHead]
    · -- and it is nonzero
      intro h
      have := congrFun h 3
      norm_num [svdW, Matrix.cons_val_three, Matrix.vecTail, Matrix.vecHead,
        Matrix.cons_val_zero, Matrix.head_cons] at this
  · exact (triangulate_missing_and_nondegenerate svdW false (fun _ p => p)
      matsW (fun (_ : Fin 2) (_ : Fin 1) => (none : Option Pt2)) 0).1
      (by decide)
/-- Once a best combination is recorded the search never comes back
empty. -/
theorem possibleLoopKept_some_ne_none (score : List Pick → Option ℚ)
    (thr : ℚ) :
    ∀ (l : List (List Pick)) (p0 : List Pick) (e0 : ℚ) (be : ℚ),
      possibleLoopKept score thr l (some (p0, e0)) be ≠ none := by
  intro l
  induction l with
  | nil => intro p0 e0 be h; exact absurd h (by simp [possibleLoopKept])
  | cons pk rest ih =>
    intro p0 e0 be
    simp only [possibleLoopKept]
    cases hs : score pk with
    | none => exact ih p0 e0 be
    | some e =>
      dsimp only
      by_cases hlt : e < be
      · rw [if_pos hlt]
        by_cases hthr : e < thr
        · rw [if_pos hthr]; simp
        · rw [if_neg hthr]; exact ih pk e e
      · rw [if_neg hlt]; exact ih p0 e0 be

/-- Whatever the search returns was either the incoming best or an
enumerated combination scored strictly below the incoming bound. -/
theorem possibleLoopKept_sound (score : List Pick → Option ℚ) (thr : ℚ) :
    ∀ (l : List (List Pick)) (best : Option (List Pick × ℚ)) (be : ℚ)
      (p : List Pick) (e : ℚ),
      possibleLoopKept score thr l best be = some (p, e) →
      best = some (p, e) ∨ (p ∈ l ∧ score p = some e ∧ e < be) := by
  intro l
  induction l with
  | nil => intro best be p e h; exact Or.inl h
  | cons pk rest ih =>
    intro best be p e h
    simp only [possibleLoopKept] at h
    cases hs : score pk with
    | none =>
      rw [hs] at h
      dsimp only at h
      rcases ih best be p e h with h' | ⟨hm, hsc, hlt⟩
      · exact Or.inl h'
      · exact Or.inr ⟨List.mem_cons_of_mem _ hm, hsc, hlt⟩
    | some e' =>
      rw [hs] at h
      dsimp only at h
      by_cases hlt : e' < be
      · rw [if_pos hlt] at h
        by_cases hthr : e' < thr
        · rw [if_pos hthr] at h
          rcases Option.some.inj h with heq
          have hp : pk = p := congrArg Prod.fst heq
          have he : e' = e := congrArg Prod.snd heq
          subst hp; subst he
          exact Or.inr ⟨List.mem_cons_self _ _, hs, hlt⟩
        · rw [if_neg hthr] at h
          rcases ih _ e' p e h with h' | ⟨hm, hsc, hlt2⟩
          · rcases Option.some.inj h' with heq
            have hp : pk = p := congrArg Prod.fst heq
            have he : e' = e := congrArg Prod.snd heq
            subst hp; subst he
            exact Or.inr ⟨List.mem_cons_self _ _, hs, hlt⟩
          · exact Or.inr ⟨List.mem_cons_of_mem _ hm, hsc, lt_trans hlt2 hlt⟩
      · rw [if_neg hlt] at h
        rcases ih best be p e h with h' | ⟨hm, hsc, hlt2⟩
        · exact Or.inl h'
        · exact Or.inr ⟨List.mem_cons_of_mem _ hm, hsc, hlt2⟩

/-- Starting with no best, the search returns nothing exactly when every
enumerated combination scores at or above the bound. -/
theorem possibleLoopKept_none_iff (score : List Pick → Option ℚ) (thr : ℚ) :
    ∀ (l : List (List Pick)) (be : ℚ),
      possibleLoopKept score thr l none be = none ↔
        ∀ q ∈ l, ∀ e, score q = some e → be ≤ e := by
  intro l
  induction l with
  | nil =>
    intro be
    simp [possibleLoopKept]
  | cons pk rest ih =>
    intro be
    simp only [possibleLoopKept]
    cases hs : score pk with
    | none =>
      dsimp only
      rw [ih be]
      constructor
      · intro h q hq e he
        rcases List.mem_cons.mp hq with rfl | hq'
        · rw [hs] at he; exact absurd he (by simp)
        · exact h q hq' e he
      · intro h q hq e he
        exact h q (List.mem_cons_of_mem _ hq) e he
    | some e' =>
      dsimp only
      by_cases hlt : e' < be
      · rw [if_pos hlt]
        constructor
        · intro h
          exfalso
          by_cases hthr : e' < thr
          · rw [if_pos hthr] at h; exact absurd h (by simp)
          · rw [if_neg hthr] at h
            exact possibleLoopKept_some_ne_none score thr rest pk e' e' h
        · intro h
          exfalso
          have := h pk (List.mem_cons_self _ _) e' hs
          exact absurd hlt (not_lt.mpr this)
      · rw [if_neg hlt, ih be]
        constructor
        · intro h q hq e he
          rcases List.mem_cons.mp hq with rfl | hq'
          · rw [hs] at he
            rcases Option.some.inj he with rfl
            exact not_lt.mp hlt
          · exact h q hq' e he
        · intro h q hq e he
          exact h q (List.mem_cons_of_mem _ hq) e he

/-- The enumeration with its skip test equals the plain loop over the
combinations that survive the pick-count rule, in order. -/
theorem possibleLoop_eq_kept (score : List Pick → Option ℚ)
    (minCams nmax : ℕ) (thr : ℚ) :
    ∀ (l : List (List (Option Pick))) (best : Option (List Pick × ℚ)) (be : ℚ),
      possibleLoop score minCams nmax thr l best be
        = possibleLoopKept score thr
            ((l.map picksOf).filter
              (fun pk => decide (comboValid minCams nmax pk))) best be := by
  intro l
  induction l with
  | nil => intro best be; rfl
  | cons combo rest ih =>
    intro best be
    simp only [possibleLoop, List.map_cons, List.filter_cons]
    by_cases h : (picksOf combo).length < minCams ∧
        (picksOf combo).length ≠ nmax
    · rw [if_pos h]
      have hd : decide (comboValid minCams nmax (picksOf combo)) = false :=
        decide_eq_false (not_not_intro h)
      rw [hd]
      simp only [Bool.false_eq_true, if_false]
      exact ih best be
    · rw [if_neg h]
      have hd : decide (comboValid minCams nmax (picksOf combo)) = true :=
        decide_eq_true h
      rw [hd]
      simp only [if_true]
      rw [possibleLoopKept]
      cases hs : score (picksOf combo) with
      | none => dsimp only; exact ih best be
      | some e =>
        dsimp only
        by_cases hlt : e < be
        · rw [if_pos hlt, if_pos hlt]
          by_cases hthr : e < thr
          · rw [if_pos hthr, if_pos hthr]
          · rw [if_neg hthr, if_neg hthr]; exact ih _ _
        · rw [if_neg hlt, if_neg hlt]; exact ih best be
/-- When no enumerated combination scores below the threshold the break
never fires and the search is the pure running-minimum sweep. -/
theorem possibleLoopKept_eq_minLoop (score : List Pick → Option ℚ) (thr : ℚ) :
    ∀ (l : List (List Pick)),
      (∀ q ∈ l, ∀ e, score q = some e → thr ≤ e) →
      ∀ (best : Option (List Pick × ℚ)) (be : ℚ),
        possibleLoopKept score thr l best be = minLoop score l best be := by
  intro l
  induction l with
  | nil => intro _ best be; rfl
  | cons pk rest ih =>
    intro hno best be
    simp only [possibleLoopKept, minLoop]
    cases hs : score pk with
    | none =>
      dsimp only
      exact ih (fun q hq => hno q (List.mem_cons_of_mem _ hq)) best be
    | some e =>
      dsimp only
      have hthr : thr ≤ e := hno pk (List.mem_cons_self _ _) e hs
      by_cases hlt : e < be
      · rw [if_pos hlt, if_pos hlt, if_neg (not_lt.mpr hthr)]
        exact ih (fun q hq => hno q (List.mem_cons_of_mem _ hq)) _ _
      · rw [if_neg hlt, if_neg hlt]
        exact ih (fun q hq => hno q (List.mem_cons_of_mem _ hq)) best be

/-- Characterization of the running-minimum sweep: it returns nothing
exactly when nothing beats the bound, and otherwise the first
combination, in enumeration order, achieving the minimum score — every
earlier combination scores strictly higher, every later one at least as
high. -/
theorem minLoop_char (score : List Pick → Option ℚ) :
    ∀ (l : List (List Pick)) (best : Option (List Pick × ℚ)) (be : ℚ),
      (∀ p0 e0, best = some (p0, e0) → e0 = be ∧ score p0 = some e0) →
      ((minLoop score l best be = none ↔
         best = none ∧ ∀ q ∈ l, ∀ e, score q = some e → be ≤ e) ∧
       (∀ p e, minLoop score l best be = some (p, e) →
         score p = some e ∧
         ((best = some (p, e) ∧
             ∀ q ∈ l, ∀ e', score q = some e' → e ≤ e') ∨
          (e < be ∧ ∃ l1 l2, l = l1 ++ p :: l2 ∧
            (∀ q ∈ l1, ∀ e', score q = some e' → e < e') ∧
            (∀ q ∈ l2, ∀ e', score q = some e' → e ≤ e'))))) := by
  intro l
  induction l with
  | nil =>
    intro best be hinv
    constructor
    · simp only [minLoop]
      constructor
      · intro h; exact ⟨h, by simp⟩
      · intro h; exact h.1
    · intro p e h
      simp only [minLoop] at h
      have := hinv p e h
      exact ⟨this.2, Or.inl ⟨h, by simp⟩⟩
  | cons pk rest ih =>
    intro best be hinv
    simp only [minLoop]
    cases hs : score pk with
    | none =>
      dsimp only
      rcases ih best be hinv with ⟨ihn, ihs⟩
      constructor
      · rw [ihn]
        constructor
        · rintro ⟨h1, h2⟩
          refine ⟨h1, fun q hq e he => ?_⟩
          rcases List.mem_cons.mp hq with rfl | hq'
          · rw [hs] at he; exact absurd he (by simp)
          · exact h2 q hq' e he
        · rintro ⟨h1, h2⟩
          exact ⟨h1, fun q hq e he => h2 q (List.mem_cons_of_mem _ hq) e he⟩
      · intro p e h
        rcases ihs p e h with ⟨hsc, hbr⟩
        refine ⟨hsc, ?_⟩
        rcases hbr with ⟨hb, hall⟩ | ⟨hlt, l1, l2, hdec, hstrict, hsuf⟩
        · left
          refine ⟨hb, fun q hq e' he' => ?_⟩
          rcases List.mem_cons.mp hq with rfl | hq'
          · rw [hs] at he'; exact absurd he' (by simp)
          · exact hall q hq' e' he'
        · right
          refine ⟨hlt, pk :: l1, l2, by rw [hdec, List.cons_append], ?_, hsuf⟩
          intro q hq e' he'
          rcases List.mem_cons.mp hq with rfl | hq'
          · rw [hs] at he'; exact absurd he' (by simp)
          · exact hstrict q hq' e' he'
    | some e' =>
      dsimp only
      by_cases hlt : e' < be
      · rw [if_pos hlt]
        have hinv' : ∀ p0 e0, (some (pk, e') : Option (List Pick × ℚ))
            = some (p0, e0) → e0 = e' ∧ score p0 = some e0 := by
          intro p0 e0 h0
          rcases Option.some.inj h0 with heq
          have hp : pk = p0 := congrArg Prod.fst heq
          have he : e' = e0 := congrArg Prod.snd heq
          subst hp; subst he
          exact ⟨rfl, hs⟩
        rcases ih (some (pk, e')) e' hinv' with ⟨ihn, ihs⟩
        constructor
        · rw [ihn]
          constructor
          · rintro ⟨h1, -⟩; exact absurd h1 (by simp)
          · rintro ⟨-, h2⟩
            exact absurd hlt (not_lt.mpr (h2 pk (List.mem_cons_self _ _) e' hs))
        · intro p e h
          rcases ihs p e h with ⟨hsc, hbr⟩
          refine ⟨hsc, ?_⟩
          rcases hbr with ⟨hb, hall⟩ | ⟨hlt2, l1, l2, hdec, hstrict, hsuf⟩
          · right
            rcases Option.some.inj hb with heq
            have hp : pk = p := congrArg Prod.fst heq
            have he : e' = e := congrArg Prod.snd heq
            subst hp; subst he
            exact ⟨hlt, [], rest, rfl, by simp, hall⟩
          · right
            refine ⟨lt_trans hlt2 hlt, pk :: l1, l2, by rw [hdec, List.cons_append], ?_, hsuf⟩
            intro q hq e'' he''
            rcases List.mem_cons.mp hq with rfl | hq'
            · rw [hs] at he''
              rcases Option.some.inj he'' with rfl
              exact hlt2
            · exact hstrict q hq' e'' he''
      · rw [if_neg hlt]
        rcases ih best be hinv with ⟨ihn, ihs⟩
        constructor
        · rw [ihn]
          constructor
          · rintro ⟨h1, h2⟩
            refine ⟨h1, fun q hq e he => ?_⟩
            rcases List.mem_cons.mp hq with rfl | hq'
            · rw [hs] at he
              rcases Option.some.inj he with rfl
              exact not_lt.mp hlt
            · exact h2 q hq' e he
          · rintro ⟨h1, h2⟩
            exact ⟨h1, fun q hq e he => h2 q (List.mem_cons_of_mem _ hq) e he⟩
        · intro p e h
          rcases ihs p e h with ⟨hsc, hbr⟩
          refine ⟨hsc, ?_⟩
          rcases hbr with ⟨hb, hall⟩ | ⟨hlt2, l1, l2, hdec, hstrict, hsuf⟩
          · left
            refine ⟨hb, fun q hq e'' he'' => ?_⟩
            rcases List.mem_cons.mp hq with rfl | hq'
            · rw [hs] at he''
              rcases Option.some.inj he'' with rfl
              have hbe : e = be := (hinv p e hb).1
              rw [hbe]
              exact not_lt.mp hlt
            · exact hall q hq' e'' he''
          · right
            refine ⟨hlt2, pk :: l1, l2, by rw [hdec, List.cons_append], ?_, hsuf⟩
            intro q hq e'' he''
            rcases List.mem_cons.mp hq with rfl | hq'
            · rw [hs] at he''
              rcases Option.some.inj he'' with rfl
              exact lt_of_lt_of_le hlt2 (not_lt.mp hlt)
            · exact hstrict q hq' e'' he''

/-- Short-circuit: if every combination before c scores at or above the
threshold and c scores below both the threshold and the running bound,
the search stops at c and returns it, whatever follows. -/
theorem possibleLoopKept_break (score : List Pick → Option ℚ) (thr : ℚ) :
    ∀ (l1 : List (List Pick)) (c : List Pick) (l2 : List (List Pick))
      (best : Option (List Pick × ℚ)) (be : ℚ),
      thr ≤ be →
      (∀ p0 e0, best = some (p0, e0) → e0 = be) →
      (∀ q ∈ l1, ∀ e', score q = some e' → thr ≤ e') →
      ∀ e, score c = some e → e < thr →
      possibleLoopKept score thr (l1 ++ c :: l2) best be = some (c, e) := by
  intro l1
  induction l1 with
  | nil =>
    intro c l2 best be hbe _ _ e hc hthr
    simp only [List.nil_append, possibleLoopKept]
    rw [hc]
    dsimp only
    rw [if_pos (lt_of_lt_of_le hthr hbe), if_pos hthr]
  | cons q l1' ih =>
    intro c l2 best be hbe hinv hpre e hc hthr
    simp only [List.cons_append, possibleLoopKept]
    cases hs : score q with
    | none =>
      dsimp only
      exact ih c l2 best be hbe hinv
        (fun q' hq' => hpre q' (List.mem_cons_of_mem _ hq')) e hc hthr
    | some e' =>
      dsimp only
      have hq : thr ≤ e' := hpre q (List.mem_cons_self _ _) e' hs
      by_cases hlt : e' < be
      · rw [if_pos hlt, if_neg (not_lt.mpr hq)]
        exact ih c l2 (some (q, e')) e' hq
          (fun p0 e0 h0 => (congrArg Prod.snd (Option.some.inj h0)).symm)
          (fun q' hq' => hpre q' (List.mem_cons_of_mem _ hq')) e hc hthr
      · rw [if_neg hlt]
        exact ih c l2 best be hbe hinv
          (fun q' hq' => hpre q' (List.mem_cons_of_mem _ hq')) e hc hthr
/-- C5 amended: triangulate_possible's per-point search enumerates the
Cartesian product of pick-one-candidate-or-none per camera, skips
combinations with fewer than min_cams picks unless the count equals the
number of observing cameras, accepts a combination only if its mean
reprojection error is below the 200 px initial bound, returns nothing
exactly when no kept combination scores below 200, returns the first
combination in enumeration order achieving the minimum score whenever no
score is below threshold (ties keep the earliest), and — provided
threshold ≤ 200 — stops enumerating as soon as a combination's error is
below threshold.  (As frozen, the stop clause fails for threshold >
200 px: see the counterexample.) -/
theorem triangulate_possible_selection (cams : List (ℕ × ℕ))
    (score : List Pick → Option ℚ) (minCams : ℕ) (thr : ℚ) :
    (triangulatePossiblePoint cams score minCams thr
       = possibleLoopKept score thr (keptCombos cams minCams) none 200) ∧
    (∀ p e, triangulatePossiblePoint cams score minCams thr = some (p, e) →
       p ∈ keptCombos cams minCams ∧ score p = some e ∧ e < 200) ∧
    (triangulatePossiblePoint cams score minCams thr = none ↔
       ∀ q ∈ keptCombos cams minCams, ∀ e, score q = some e → 200 ≤ e) ∧
    ((∀ q ∈ keptCombos cams minCams, ∀ e, score q = some e → thr ≤ e) →
      ∀ p e, triangulatePossiblePoint cams score minCams thr = some (p, e) →
        score p = some e ∧ e < 200 ∧
        ∃ l1 l2, keptCombos cams minCams = l1 ++ p :: l2 ∧
          (∀ q ∈ l1, ∀ e', score q = some e' → e < e') ∧
          (∀ q ∈ l2, ∀ e', score q = some e' → e ≤ e')) ∧
    (thr ≤ 200 →
      ∀ l1 c l2, keptCombos cams minCams = l1 ++ c :: l2 →
        (∀ q ∈ l1, ∀ e', score q = some e' → thr ≤ e') →
        ∀ e, score c = some e → e < thr →
        triangulatePossiblePoint cams score minCams thr = some (c, e)) := by
  have h1 : triangulatePossiblePoint cams score minCams thr
      = possibleLoopKept score thr (keptCombos cams minCams) none 200 := by
    unfold triangulatePossiblePoint keptCombos
    exact possibleLoop_eq_kept score minCams cams.length thr _ none 200
  refine ⟨h1, ?_, ?_, ?_, ?_⟩
  · intro p e h
    rw [h1] at h
    rcases possibleLoopKept_sound score thr _ none 200 p e h with h' | hgood
    · exact absurd h' (by simp)
    · exact hgood
  · rw [h1]
    exact possibleLoopKept_none_iff score thr _ 200
  · intro hno p e h
    rw [h1, possibleLoopKept_eq_minLoop score thr _ hno none 200] at h
    rcases (minLoop_char score _ none 200 (by simp)).2 p e h with ⟨hsc, hbr⟩
    rcases hbr with ⟨hb, -⟩ | ⟨hlt, l1, l2, hdec, hstrict, hsuf⟩
    · exact absurd hb (by simp)
    · exact ⟨hsc, hlt, l1, l2, hdec, hstrict, hsuf⟩
  · intro h200 l1 c l2 hdec hpre e hc hthr
    rw [h1, hdec]
    exact possibleLoopKept_break score thr l1 c l2 none 200 h200 (by simp)
      hpre e hc hthr

/-- C5 witness: with every score at 300 nothing is accepted; with one
candidate per camera scoring 100 and threshold 200 the full combination
is returned with its score. -/
theorem triangulate_possible_selection_witness :
    triangulatePossiblePoint [(0, 1), (1, 1)] (fun _ => some 300) 2 (1 / 2)
      = none ∧
    triangulatePossiblePoint [(0, 1), (1, 1)] (fun _ => some 100) 2 200
      = some ([(0, 0), (1, 0)], 100) := by
  constructor
  · apply (triangulate_possible_selection [(0, 1), (1, 1)]
      (fun _ => some 300) 2 (1 / 2)).2.2.1.mpr
    intro q hq e he
    have h : (300 : ℚ) = e := Option.some.inj he
    rw [← h]
    norm_num
  · have h := (triangulate_possible_selection [(0, 1), (1, 1)]
      (fun _ => some 100) 2 200).2.2.2.2
    exact h le_rfl [] [(0, 0), (1, 0)] [] (by decide) (by simp) 100 rfl
      (by norm_num)

/-- C5 counterexample: with threshold 300 the claimed "stop as soon as a
combination's error is below threshold" is false — the first kept
combination scores 250 < 300, yet the code does not stop there (250
never beats the 200 px bound, so it is not recorded) and instead returns
a later combination scoring 100. -/
theorem triangulate_possible_stop_cex :
    ¬ (∀ (cams : List (ℕ × ℕ)) (score : List Pick → Option ℚ)
        (minCams : ℕ) (thr : ℚ) (l1 : List (List Pick)) (c : List Pick)
        (l2 : List (List Pick)),
        keptCombos cams minCams = l1 ++ c :: l2 →
        (∀ q ∈ l1, ∀ e, score q = some e → ¬ e < thr) →
        ∀ e, score c = some e → e < thr →
        triangulatePossiblePoint cams score minCams thr
          = possibleLoopKept score thr (l1 ++ [c]) none 200) := by
  intro h
  have hmain := h [(0, 2), (1, 2)] sampleScore 2 300 [] [(0, 0), (1, 0)]
    [[(0, 0), (1, 1)], [(0, 1), (1, 0)], [(0, 1), (1, 1)]]
    (by decide) (by simp) 250 (by decide) (by norm_num)
  have hL : triangulatePossiblePoint [(0, 2), (1, 2)] sampleScore 2 300
      = some ([(0, 0), (1, 1)], 100) := by decide
  have hR : possibleLoopKept sampleScore 300
      (([] : List (List Pick)) ++ [[(0, 0), (1, 0)]]) none 200 = none := by
    decide
  rw [hL, hR] at hmain
  exact absurd hmain (by simp)

/-- C10: when the search accepts no combination (exactly: no kept
combination scores below the 200 px bound) the committed outputs for
that point are the preinitialized values — missing 3D point, all-false
picked mask, missing 2D points, and error 0.0 — so a zero error entry
does not by itself indicate a successful reconstruction; an accepted
combination instead commits its point, mask, 2D points and its
(below-200) error. -/
theorem triangulate_possible_no_accept_defaults (cams : List (ℕ × ℕ))
    (score : List Pick → Option ℚ) (minCams : ℕ) (thr : ℚ)
    (p3dOf : List Pick → Pt3) :
    ((triangulatePossiblePoint cams score minCams thr = none) ↔
      ∀ q ∈ keptCombos cams minCams, ∀ e, score q = some e → 200 ≤ e) ∧
    (triangulatePossiblePoint cams score minCams thr = none →
      triangulatePossibleOutputs cams score minCams thr p3dOf
        = (none, [], none, 0)) ∧
    (∀ p e, triangulatePossiblePoint cams score minCams thr = some (p, e) →
      triangulatePossibleOutputs cams score minCams thr p3dOf
        = (some (p3dOf p), p, some p, e) ∧ e < 200) := by
  have h1 : triangulatePossiblePoint cams score minCams thr
      = possibleLoopKept score thr (keptCombos cams minCams) none 200 := by
    unfold triangulatePossiblePoint keptCombos
    exact possibleLoop_eq_kept score minCams cams.length thr _ none 200
  refine ⟨?_, ?_, ?_⟩
  · rw [h1]
    exact possibleLoopKept_none_iff score thr _ 200
  · intro h
    unfold triangulatePossibleOutputs
    rw [h]
  · intro p e h
    refine ⟨by unfold triangulatePossibleOutputs; rw [h], ?_⟩
    rw [h1] at h
    rcases possibleLoopKept_sound score thr _ none 200 p e h with h' | hgood
    · exact absurd h' (by simp)
    · exact hgood.2.2

/-- C10 witness: with every combination scoring 500 the outputs stay at
their defaults. -/
theorem triangulate_possible_no_accept_defaults_witness :
    triangulatePossibleOutputs [(0, 2), (1, 2)] (fun _ => some 500) 2 (1 / 2)
      (fun _ => ((0 : ℚ), (0 : ℚ), (0 : ℚ))) = (none, [], none, 0) := by
  have h := triangulate_possible_no_accept_defaults [(0, 2), (1, 2)]
    (fun _ => some 500) 2 (1 / 2) (fun _ => ((0 : ℚ), (0 : ℚ), (0 : ℚ)))
  apply h.2.1
  apply h.1.mpr
  intro q hq e he
  have h5 : (500 : ℚ) = e := Option.some.inj he
  rw [← h5]
  norm_num
/-- C2 witness: the round-trip identity instantiated at the default
pinhole camera and the default fisheye camera. -/
theorem params_roundtrip_characterization_witness :
    Camera.setParams defaultCamera
        (Camera.getParams defaultCamera true) true = defaultCamera ∧
    FisheyeCamera.setParams defaultFisheye
        (FisheyeCamera.getParams defaultFisheye false) false = defaultFisheye :=
  ⟨(params_roundtrip_characterization defaultCamera).1
      ⟨0, 0, 0, 0, 0, by decide⟩ (by decide) (by decide) (by decide) (by decide),
   (params_roundtrip_characterization defaultFisheye).2.2 rfl ⟨0, 0, rfl⟩⟩

end Anipose
